import Mathlib

/-!
Verification of the rule-set differ and the profile-load validation gate of
eslint-config-functype.

The differ lives in src/cli/list-rules.ts: the functions modelled here are
extractRules (lines 74-91), getRuleSource (lines 93-97) and compareRules
(lines 294-344).  The profile-load gate lives in src/configs/recommended.ts
(lines 8-20); the dependency-validator module it calls is not part of the
snapshot, so its pieces are modelled from the specification and are marked as
such in their doc comments.

Modelling conventions.
Rule option values are JSON-representable values, modelled by the inductive
type Json below with integer numerals (every option value appearing in the
repository is a boolean, a string, an integer, an array or a plain object).
JavaScript Map objects keyed by rule name are modelled as association lists;
the Map of the source never holds a duplicate key, since it is built from the
keys of a Record.  JSON.stringify is modelled by the function stringify;
Array.prototype.sort, which is a stable sort, is modelled by
List.insertionSort, which is also stable.  String.prototype.localeCompare,
called with no locale argument, is modelled by localeCompare below from the
documented behaviour of the default ICU root collation used by Node
(restricted to ASCII): at the primary level letters compare case-insensitively
and non-alphanumeric characters order before digits, which order before
letters; ties are broken by case, lowercase before uppercase.  This is
observable in Node, where the expression
["B", "a"].sort((x, y) => x.localeCompare(y)) evaluates to ["a", "B"].
-/

/-- JSON-representable option values, the payload of the unknown[] options
array of a rule configuration. -/
inductive Json where
  | null : Json
  | bool (b : Bool) : Json
  | num (n : Int) : Json
  | str (s : String) : Json
  | arr (xs : List Json) : Json
  | obj (fields : List (String × Json)) : Json

/-- String escaping as performed by JSON.stringify: quotes and backslashes are
escaped (control-character escapes are omitted; no option value in the
repository contains them). -/
def jsonQuote (s : String) : String :=
  let esc := s.data.map (fun c =>
    if c = '"' then String.mk ['\\', '"']
    else if c = '\\' then String.mk ['\\', '\\']
    else String.mk [c])
  String.join (["\""] ++ esc ++ ["\""])

mutual
/-- JSON.stringify on JSON-representable values: the canonical serialization
that compareRules (src/cli/list-rules.ts line 321) compares options with. -/
def stringify : Json → String
  | .null => "null"
  | .bool b => if b then "true" else "false"
  | .num n => toString n
  | .str s => jsonQuote s
  | .arr xs => "[" ++ stringifyItems xs ++ "]"
  | .obj fs => "\x7b" ++ stringifyFields fs ++ "\x7d"

/-- Comma-separated serialization of the elements of a JSON array. -/
def stringifyItems : List Json → String
  | [] => ""
  | [x] => stringify x
  | x :: y :: rest => stringify x ++ "," ++ stringifyItems (y :: rest)

/-- Comma-separated serialization of the fields of a JSON object, in field
order, as JSON.stringify enumerates own properties in insertion order. -/
def stringifyFields : List (String × Json) → String
  | [] => ""
  | [(k, v)] => jsonQuote k ++ ":" ++ stringify v
  | (k, v) :: f :: rest => jsonQuote k ++ ":" ++ stringify v ++ "," ++ stringifyFields (f :: rest)
end

/-- The RuleSeverity union type of src/cli/list-rules.ts line 8:
the three string severities and the three numeric severities are six distinct
values, and the strict inequality of the source distinguishes, for example,
the string severity error from the numeric severity 2. -/
inductive RuleSeverity where
  | off : RuleSeverity
  | warn : RuleSeverity
  | error : RuleSeverity
  | num0 : RuleSeverity
  | num1 : RuleSeverity
  | num2 : RuleSeverity
deriving DecidableEq

/-- The RuleData interface of src/cli/list-rules.ts lines 11-15. -/
structure RuleData where
  severity : RuleSeverity
  options : List Json
  source : String

/-- The four diff statuses of the RuleDiff interface,
src/cli/list-rules.ts line 30. -/
inductive DiffStatus where
  | added : DiffStatus
  | removed : DiffStatus
  | different : DiffStatus
  | same : DiffStatus
deriving DecidableEq

/-- The RuleDiff interface of src/cli/list-rules.ts lines 28-35; the optional
fields are Option-valued, and a field left unset by the source is none. -/
structure RuleDiff where
  name : String
  status : DiffStatus
  localSeverity : Option RuleSeverity
  functypeSeverity : Option RuleSeverity
  localOptions : Option (List Json)
  functypeOptions : Option (List Json)

/-- A Map from rule name to RuleData, modelled as an association list in
insertion order; lookups take the first matching key, and the maps built by
the source never hold a duplicate key. -/
abbrev RuleMap := List (String × RuleData)

/-- The keys of a rule map, in insertion order, as Map.keys() yields them. -/
def mapKeys (m : RuleMap) : List String := m.map Prod.fst

/-- One insertion step of a JavaScript Set: a value already present is
ignored, a new value is appended. -/
def addUnique (acc : List String) (a : String) : List String :=
  if a ∈ acc then acc else acc ++ [a]

/-- The element list of new Set(l) in iteration order: first occurrences
kept, in order of first insertion. -/
def jsSetList (l : List String) : List String := l.foldl addUnique []

/-- Primary collation weight of an ASCII character under the Node default
root collation: non-alphanumeric characters keep their code point, digits are
shifted above them, and letters sit above digits with case folded away
(an uppercase letter gets the weight of its lowercase form). -/
def primaryWeight (c : Char) : Nat :=
  if c.isLower then 1000 + c.toNat
  else if c.isUpper then 1032 + c.toNat
  else if c.isDigit then 500 + c.toNat
  else c.toNat

/-- Tertiary collation weight: lowercase sorts before uppercase when the
primary weights tie. -/
def tertiaryWeight (c : Char) : Nat := if c.isUpper then 1 else 0

/-- Lexicographic three-way comparison of weight lists. -/
def natLexOrd : List Nat → List Nat → Ordering
  | [], [] => .eq
  | [], _ :: _ => .lt
  | _ :: _, [] => .gt
  | a :: as, b :: bs =>
    if a < b then .lt else if b < a then .gt else natLexOrd as bs

/-- The primary collation key of a string: all primary weights, compared
before any tertiary weight is consulted. -/
def primaryKey (s : String) : List Nat := s.data.map primaryWeight

/-- The tertiary collation key of a string. -/
def tertiaryKey (s : String) : List Nat := s.data.map tertiaryWeight

/-- Three-way collation of two strings: full primary pass, then the tertiary
pass as tie break. -/
def collOrd (s t : String) : Ordering :=
  (natLexOrd (primaryKey s) (primaryKey t)).then
    (natLexOrd (tertiaryKey s) (tertiaryKey t))

/-- Model of String.prototype.localeCompare under the Node default root
collation, restricted to ASCII, returning the sign values used by the sort
comparator of src/cli/list-rules.ts line 343. -/
def localeCompare (s t : String) : Int :=
  match collOrd s t with
  | .lt => -1
  | .eq => 0
  | .gt => 1

/-- The sort order of the comparator (a, b) => a.name.localeCompare(b.name)
of src/cli/list-rules.ts line 343: a sorts no later than b. -/
def diffLe (a b : RuleDiff) : Prop := localeCompare a.name b.name ≤ 0

instance : DecidableRel diffLe := fun a b =>
  inferInstanceAs (Decidable (localeCompare a.name b.name ≤ 0))

/-- The body of the forEach loop of compareRules
(src/cli/list-rules.ts lines 298-341): the diff entry pushed for one rule
name, or none when the name is in neither map, in which case the source
pushes nothing. -/
def diffEntry (localRules functypeRules : RuleMap) (ruleName : String) : Option RuleDiff :=
  match localRules.lookup ruleName, functypeRules.lookup ruleName with
  | none, some functypeRule =>
    some ⟨ruleName, .added, none, some functypeRule.severity, none, some functypeRule.options⟩
  | some localRule, none =>
    some ⟨ruleName, .removed, some localRule.severity, none, some localRule.options, none⟩
  | some localRule, some functypeRule =>
    if localRule.severity ≠ functypeRule.severity ∨
        stringify (.arr localRule.options) ≠ stringify (.arr functypeRule.options) then
      some ⟨ruleName, .different, some localRule.severity, some functypeRule.severity,
        some localRule.options, some functypeRule.options⟩
    else
      some ⟨ruleName, .same, some localRule.severity, some functypeRule.severity, none, none⟩
  | none, none => none

/-- compareRules of src/cli/list-rules.ts lines 294-344: the union Set of
both key lists is traversed, one diff is pushed per name, and the result is
sorted by the localeCompare comparator (a stable sort, modelled by insertion
sort). -/
def compareRules (localRules functypeRules : RuleMap) : List RuleDiff :=
  List.insertionSort diffLe
    ((jsSetList (mapKeys localRules ++ mapKeys functypeRules)).filterMap
      (diffEntry localRules functypeRules))

/-- The RuleConfig union type of src/cli/list-rules.ts line 9: a bare
severity, or a nonempty array whose head is the severity and whose tail is
the options. -/
inductive RuleConfig where
  | plain (s : RuleSeverity) : RuleConfig
  | arr (s : RuleSeverity) (opts : List Json) : RuleConfig

/-- getRuleSource of src/cli/list-rules.ts lines 93-97. -/
def getRuleSource (ruleName : String) : String :=
  if ruleName.startsWith ("functional/") then "eslint-plugin-functional"
  else if ruleName.startsWith ("@typescript-eslint/") then "@typescript-eslint/eslint-plugin"
  else "eslint (core)"

/-- extractRules of src/cli/list-rules.ts lines 74-91: the severity is the
array head or the bare value, the options are the array tail or empty, and
the source label is derived from the name.  The input Record has unique keys,
so the Map.set calls never overwrite and the loop is a plain map. -/
def extractRules (rules : List (String × RuleConfig)) : RuleMap :=
  rules.map (fun p =>
    let severity := match p.2 with | .plain s => s | .arr s _ => s
    let options := match p.2 with | .plain _ => [] | .arr _ opts => opts
    (p.1, ⟨severity, options, getRuleSource p.1⟩))

/-- The forEach traversal of compareRules with its implicit fall-through made
an explicit failure: a rule name drawn from the key union that is found in
neither map would be the only way for the loop body to produce nothing, and
it is the only conceivable failure point of the differ.  Used to state that
the differ is total. -/
def mapDiffE (A B : RuleMap) : List String → Except String (List RuleDiff)
  | [] => Except.ok []
  | n :: l =>
    match diffEntry A B n, mapDiffE A B l with
    | some d, Except.ok ds => Except.ok (d :: ds)
    | none, _ => Except.error (("rule name in key union but absent from both maps: ") ++ n)
    | some _, Except.error e => Except.error e

/-- compareRules with the explicit failure path of mapDiffE: it returns
Except.ok on every input, which is proved below. -/
def compareRulesE (A B : RuleMap) : Except String (List RuleDiff) :=
  (mapDiffE A B (jsSetList (mapKeys A ++ mapKeys B))).map (List.insertionSort diffLe)

/-- A rule map with the derived source label erased from every entry: two
maps with equal erasures agree on every name, severity and options list and
differ at most in source labels. -/
def eraseSource (m : RuleMap) : List (String × (RuleSeverity × List Json)) :=
  m.map (fun p => (p.1, (p.2.severity, p.2.options)))

/-- Status relabelling under swapping which map is local and which is the
reference profile: added and removed trade places, different and same are
fixed. -/
def DiffStatus.swapSides : DiffStatus → DiffStatus
  | .added => .removed
  | .removed => .added
  | .different => .different
  | .same => .same

/-- A diff entry as it appears when the two input maps are swapped: the
status is relabelled and the local and functype field pairs trade places. -/
def RuleDiff.swapSides (d : RuleDiff) : RuleDiff :=
  ⟨d.name, d.status.swapSides, d.functypeSeverity, d.localSeverity,
    d.functypeOptions, d.localOptions⟩

/-- The order the specification claims for the diff output: a deterministic,
locale-independent ordinal (code-unit) comparison of the rule names.  This
definition follows the words of the specification, not the source, and exists
to be compared against the localeCompare order the source actually sorts
with.  On ASCII, code units and code points coincide. -/
def specOrdinalLe (a b : RuleDiff) : Prop :=
  natLexOrd (a.name.data.map Char.toNat) (b.name.data.map Char.toNat) ≠ .gt

/-- The ValidationResult interface imported by src/cli/list-rules.ts line 5
and consumed at lines 196-234 and by src/configs/recommended.ts: the fields
used by the snapshot are isValid, available, missing, warnings and
installCommand.  The entries of available and missing carry a name, a
required flag and a description (src/cli/list-rules.ts lines 203-216). -/
structure DependencyInfo where
  name : String
  required : Bool
  description : String

/-- The structured outcome of peer-dependency validation; see DependencyInfo. -/
structure ValidationResult where
  isValid : Bool
  available : List DependencyInfo
  missing : List DependencyInfo
  warnings : List String
  installCommand : Option String

/-- Modelled from the spec: createValidationError, from the
dependency-validator module absent from the snapshot.  The specification
requires it to build a fatal error whose message deterministically enumerates
every missing required dependency by name and description, plus the
installCommand when present. -/
def createValidationError (result : ValidationResult) : String :=
  let missingRequired := result.missing.filter (fun d => d.required)
  let details := String.intercalate ("; ")
    (missingRequired.map (fun d => d.name ++ (": ") ++ d.description))
  let base := ("eslint-config-functype: missing required peer dependencies: ") ++ details
  match result.installCommand with
  | some cmd => base ++ (" Install with: ") ++ cmd
  | none => base

/-- The module-load validation gate of src/configs/recommended.ts lines 8-20,
with the gate predicate and the validation outcome passed in (both are
computed by the dependency-validator module absent from the snapshot).  An
invalid result throws the constructed error, modelled as Except.error; a
valid result logs each warning when there are any and loading proceeds,
modelled as Except.ok carrying the list of logged warning lines. -/
def loadRecommended (shouldValidate : Bool) (result : ValidationResult) :
    Except String (List String) :=
  if shouldValidate then
    if !result.isValid then Except.error (createValidationError result)
    else Except.ok (if result.warnings.length > 0 then result.warnings else [])
  else Except.ok []

/-! ### Order properties of the collation model -/

theorem ordering_then_lt (x : Ordering) : Ordering.lt.then x = Ordering.lt := rfl

theorem ordering_then_eq (x : Ordering) : Ordering.eq.then x = x := rfl

theorem ordering_then_gt (x : Ordering) : Ordering.gt.then x = Ordering.gt := rfl

theorem natLexOrd_eq_iff : ∀ (a b : List Nat), natLexOrd a b = Ordering.eq ↔ a = b
  | [], [] => by simp [natLexOrd]
  | [], _ :: _ => by simp [natLexOrd]
  | _ :: _, [] => by simp [natLexOrd]
  | a :: as, b :: bs => by
    by_cases h1 : a < b
    · simp only [natLexOrd, if_pos h1]
      constructor
      · intro h; exact absurd h (by decide)
      · intro h
        injection h with hh _
        exact absurd h1 (by rw [hh]; exact lt_irrefl b)
    · by_cases h2 : b < a
      · simp only [natLexOrd, if_neg h1, if_pos h2]
        constructor
        · intro h; exact absurd h (by decide)
        · intro h
          injection h with hh _
          exact absurd h2 (by rw [hh]; exact lt_irrefl b)
      · have hab : a = b := Nat.le_antisymm (Nat.not_lt.mp h2) (Nat.not_lt.mp h1)
        subst hab
        simp only [natLexOrd, if_neg h1, if_neg h2]
        rw [natLexOrd_eq_iff as bs]
        constructor
        · intro h; rw [h]
        · intro h; injection h

theorem natLexOrd_swap : ∀ (a b : List Nat), natLexOrd b a = (natLexOrd a b).swap
  | [], [] => rfl
  | [], _ :: _ => rfl
  | _ :: _, [] => rfl
  | a :: as, b :: bs => by
    by_cases h1 : a < b
    · have h2 : ¬ b < a := Nat.lt_asymm h1
      simp [natLexOrd, h1, h2, Ordering.swap]
    · by_cases h2 : b < a
      · simp [natLexOrd, h1, h2, Ordering.swap]
      · simp [natLexOrd, h1, h2, natLexOrd_swap as bs]

theorem natLexOrd_lt_trans :
    ∀ (a b c : List Nat), natLexOrd a b = Ordering.lt → natLexOrd b c = Ordering.lt →
      natLexOrd a c = Ordering.lt
  | [], [], [] => by intro h _; exact absurd h (by decide)
  | [], [], _ :: _ => by intro _ _; rfl
  | [], _ :: _, [] => by intro _ h; simp [natLexOrd] at h
  | [], _ :: _, _ :: _ => by intro _ _; rfl
  | _ :: _, [], _ => by intro h _; simp [natLexOrd] at h
  | _ :: _, _ :: _, [] => by intro _ h; simp [natLexOrd] at h
  | a :: as, b :: bs, c :: cs => by
    intro hab hbc
    simp only [natLexOrd] at hab hbc ⊢
    by_cases h1 : a < b
    · by_cases h2 : b < c
      · rw [if_pos (Nat.lt_trans h1 h2)]
      · by_cases h3 : c < b
        · rw [if_neg h2, if_pos h3] at hbc
          exact absurd hbc (by decide)
        · have hbc' : b = c := Nat.le_antisymm (Nat.not_lt.mp h3) (Nat.not_lt.mp h2)
          rw [if_pos (hbc' ▸ h1)]
    · by_cases h2 : b < a
      · rw [if_neg h1, if_pos h2] at hab
        exact absurd hab (by decide)
      · have hab' : a = b := Nat.le_antisymm (Nat.not_lt.mp h2) (Nat.not_lt.mp h1)
        subst hab'
        rw [if_neg h1, if_neg h2] at hab
        by_cases h3 : a < c
        · rw [if_pos h3]
        · by_cases h4 : c < a
          · rw [if_neg h3, if_pos h4] at hbc
            exact absurd hbc (by decide)
          · rw [if_neg h3, if_neg h4] at hbc ⊢
            exact natLexOrd_lt_trans as bs cs hab hbc

theorem collOrd_eq_keys (s t : String) (h : collOrd s t = Ordering.eq) :
    primaryKey s = primaryKey t ∧ tertiaryKey s = tertiaryKey t := by
  unfold collOrd at h
  cases hp : natLexOrd (primaryKey s) (primaryKey t) <;> rw [hp] at h
  · rw [ordering_then_lt] at h
    exact absurd h (by decide)
  · rw [ordering_then_eq] at h
    exact ⟨(natLexOrd_eq_iff _ _).mp hp, (natLexOrd_eq_iff _ _).mp h⟩
  · rw [ordering_then_gt] at h
    exact absurd h (by decide)

theorem collOrd_congr_left (s t u : String)
    (hp : primaryKey s = primaryKey t) (ht : tertiaryKey s = tertiaryKey t) :
    collOrd s u = collOrd t u := by
  unfold collOrd
  rw [hp, ht]

theorem collOrd_congr_right (s t u : String)
    (hp : primaryKey t = primaryKey u) (ht : tertiaryKey t = tertiaryKey u) :
    collOrd s t = collOrd s u := by
  unfold collOrd
  rw [hp, ht]

theorem collOrd_swap (s t : String) : collOrd t s = (collOrd s t).swap := by
  unfold collOrd
  rw [natLexOrd_swap (primaryKey s) (primaryKey t),
    natLexOrd_swap (tertiaryKey s) (tertiaryKey t)]
  cases natLexOrd (primaryKey s) (primaryKey t) <;>
    cases natLexOrd (tertiaryKey s) (tertiaryKey t) <;> rfl

theorem collOrd_lt_trans (s t u : String)
    (hst : collOrd s t = Ordering.lt) (htu : collOrd t u = Ordering.lt) :
    collOrd s u = Ordering.lt := by
  unfold collOrd at hst htu ⊢
  cases hp1 : natLexOrd (primaryKey s) (primaryKey t) <;> rw [hp1] at hst
  · cases hp2 : natLexOrd (primaryKey t) (primaryKey u) <;> rw [hp2] at htu
    · rw [natLexOrd_lt_trans _ _ _ hp1 hp2, ordering_then_lt]
    · have hpk := (natLexOrd_eq_iff _ _).mp hp2
      rw [← hpk, hp1, ordering_then_lt]
    · rw [ordering_then_gt] at htu
      exact absurd htu (by decide)
  · have hpk := (natLexOrd_eq_iff _ _).mp hp1
    rw [ordering_then_eq] at hst
    cases hp2 : natLexOrd (primaryKey t) (primaryKey u) <;> rw [hp2] at htu
    · rw [hpk, hp2, ordering_then_lt]
    · rw [ordering_then_eq] at htu
      rw [hpk, hp2, ordering_then_eq]
      exact natLexOrd_lt_trans _ _ _ hst htu
    · rw [ordering_then_gt] at htu
      exact absurd htu (by decide)
  · rw [ordering_then_gt] at hst
    exact absurd hst (by decide)

theorem localeCompare_nonpos_iff (s t : String) :
    localeCompare s t ≤ 0 ↔ collOrd s t ≠ Ordering.gt := by
  unfold localeCompare
  cases h : collOrd s t
  · constructor
    · intro _ hc; exact absurd hc (by decide)
    · intro _; decide
  · constructor
    · intro _ hc; exact absurd hc (by decide)
    · intro _; decide
  · constructor
    · intro hle; exact absurd hle (by decide)
    · intro hne; exact absurd rfl hne

theorem diffLe_total (a b : RuleDiff) : diffLe a b ∨ diffLe b a := by
  unfold diffLe
  rw [localeCompare_nonpos_iff, localeCompare_nonpos_iff]
  by_cases h : collOrd a.name b.name = Ordering.gt
  · right
    rw [collOrd_swap, h]
    decide
  · left; exact h

theorem diffLe_trans (a b c : RuleDiff) (hab : diffLe a b) (hbc : diffLe b c) :
    diffLe a c := by
  unfold diffLe at hab hbc ⊢
  rw [localeCompare_nonpos_iff] at hab hbc ⊢
  cases h1 : collOrd a.name b.name
  · cases h2 : collOrd b.name c.name
    · rw [collOrd_lt_trans _ _ _ h1 h2]
      decide
    · obtain ⟨hp, ht⟩ := collOrd_eq_keys _ _ h2
      rw [← collOrd_congr_right a.name b.name c.name hp ht, h1]
      decide
    · exact absurd h2 hbc
  · obtain ⟨hp, ht⟩ := collOrd_eq_keys _ _ h1
    rw [collOrd_congr_left a.name b.name c.name hp ht]
    exact hbc
  · exact absurd h1 hab

/-! ### The key union as a JavaScript Set -/

theorem mem_addUnique (acc : List String) (a x : String) :
    x ∈ addUnique acc a ↔ x ∈ acc ∨ x = a := by
  unfold addUnique
  by_cases h : a ∈ acc
  · rw [if_pos h]
    constructor
    · intro hx; exact Or.inl hx
    · rintro (hx | rfl)
      · exact hx
      · exact h
  · rw [if_neg h]
    simp [List.mem_append]

theorem mem_foldl_addUnique :
    ∀ (l acc : List String) (x : String), x ∈ l.foldl addUnique acc ↔ x ∈ acc ∨ x ∈ l
  | [], acc, x => by simp
  | a :: l, acc, x => by
    simp only [List.foldl_cons]
    rw [mem_foldl_addUnique l (addUnique acc a) x, mem_addUnique]
    simp [List.mem_cons, or_assoc]

theorem nodup_addUnique (acc : List String) (a : String) (h : acc.Nodup) :
    (addUnique acc a).Nodup := by
  unfold addUnique
  by_cases hm : a ∈ acc
  · rwa [if_pos hm]
  · rw [if_neg hm]
    simp [List.nodup_append, h, hm]

theorem nodup_foldl_addUnique :
    ∀ (l acc : List String), acc.Nodup → (l.foldl addUnique acc).Nodup
  | [], _, h => h
  | a :: l, acc, h => by
    simp only [List.foldl_cons]
    exact nodup_foldl_addUnique l _ (nodup_addUnique acc a h)

theorem jsSetList_mem (l : List String) (x : String) : x ∈ jsSetList l ↔ x ∈ l := by
  unfold jsSetList
  rw [mem_foldl_addUnique]
  simp

theorem jsSetList_nodup (l : List String) : (jsSetList l).Nodup :=
  nodup_foldl_addUnique l [] List.nodup_nil

/-! ### Lookup in a rule map -/

theorem ruleMap_lookup_none_iff :
    ∀ (m : RuleMap) (n : String), m.lookup n = none ↔ n ∉ mapKeys m
  | [], n => by simp [List.lookup, mapKeys]
  | (k, r) :: t, n => by
    by_cases h : n = k
    · subst h
      simp [List.lookup, mapKeys]
    · have hb : (n == k) = false := by
        simp [h]
      simp only [List.lookup, hb, mapKeys, List.map_cons, List.mem_cons]
      rw [ruleMap_lookup_none_iff t n]
      simp [mapKeys, h]

theorem ruleMap_mem_of_lookup_some {m : RuleMap} {n : String} {r : RuleData}
    (h : m.lookup n = some r) : n ∈ mapKeys m := by
  by_contra hn
  rw [← ruleMap_lookup_none_iff m n] at hn
  rw [hn] at h
  cases h

theorem ruleMap_lookup_some_of_mem {m : RuleMap} {n : String} (h : n ∈ mapKeys m) :
    ∃ r, m.lookup n = some r := by
  cases hl : m.lookup n with
  | none => exact absurd ((ruleMap_lookup_none_iff m n).mp hl) (fun hc => hc h)
  | some r => exact ⟨r, rfl⟩

/-! ### The diff entry of one rule name -/

theorem diffEntry_neither (A B : RuleMap) (n : String)
    (hA : A.lookup n = none) (hB : B.lookup n = none) :
    diffEntry A B n = none := by
  unfold diffEntry
  rw [hA, hB]

theorem diffEntry_added (A B : RuleMap) (n : String) (fr : RuleData)
    (hA : A.lookup n = none) (hB : B.lookup n = some fr) :
    diffEntry A B n =
      some ⟨n, .added, none, some fr.severity, none, some fr.options⟩ := by
  unfold diffEntry
  rw [hA, hB]

theorem diffEntry_removed (A B : RuleMap) (n : String) (lr : RuleData)
    (hA : A.lookup n = some lr) (hB : B.lookup n = none) :
    diffEntry A B n =
      some ⟨n, .removed, some lr.severity, none, some lr.options, none⟩ := by
  unfold diffEntry
  rw [hA, hB]

theorem diffEntry_both (A B : RuleMap) (n : String) (lr fr : RuleData)
    (hA : A.lookup n = some lr) (hB : B.lookup n = some fr) :
    diffEntry A B n =
      if lr.severity ≠ fr.severity ∨
          stringify (.arr lr.options) ≠ stringify (.arr fr.options) then
        some ⟨n, .different, some lr.severity, some fr.severity,
          some lr.options, some fr.options⟩
      else
        some ⟨n, .same, some lr.severity, some fr.severity, none, none⟩ := by
  unfold diffEntry
  rw [hA, hB]

theorem diffEntry_none_iff (A B : RuleMap) (n : String) :
    diffEntry A B n = none ↔ n ∉ mapKeys A ∧ n ∉ mapKeys B := by
  cases hA : A.lookup n with
  | none =>
    cases hB : B.lookup n with
    | none =>
      rw [diffEntry_neither A B n hA hB]
      constructor
      · intro _
        exact ⟨(ruleMap_lookup_none_iff A n).mp hA, (ruleMap_lookup_none_iff B n).mp hB⟩
      · intro _; rfl
    | some fr =>
      rw [diffEntry_added A B n fr hA hB]
      constructor
      · intro h; cases h
      · rintro ⟨_, hnB⟩
        exact absurd (ruleMap_mem_of_lookup_some hB) hnB
  | some lr =>
    constructor
    · intro h
      cases hB : B.lookup n with
      | none =>
        rw [diffEntry_removed A B n lr hA hB] at h
        cases h
      | some fr =>
        rw [diffEntry_both A B n lr fr hA hB] at h
        by_cases hc : (lr.severity ≠ fr.severity ∨
            stringify (.arr lr.options) ≠ stringify (.arr fr.options))
        · rw [if_pos hc] at h; cases h
        · rw [if_neg hc] at h; cases h
    · rintro ⟨hnA, _⟩
      exact absurd (ruleMap_mem_of_lookup_some hA) hnA

theorem diffEntry_name {A B : RuleMap} {n : String} {d : RuleDiff}
    (h : diffEntry A B n = some d) : d.name = n := by
  cases hA : A.lookup n with
  | none =>
    cases hB : B.lookup n with
    | none =>
      rw [diffEntry_neither A B n hA hB] at h
      cases h
    | some fr =>
      rw [diffEntry_added A B n fr hA hB] at h
      cases h; rfl
  | some lr =>
    cases hB : B.lookup n with
    | none =>
      rw [diffEntry_removed A B n lr hA hB] at h
      cases h; rfl
    | some fr =>
      rw [diffEntry_both A B n lr fr hA hB] at h
      by_cases hc : (lr.severity ≠ fr.severity ∨
          stringify (.arr lr.options) ≠ stringify (.arr fr.options))
      · rw [if_pos hc] at h; cases h; rfl
      · rw [if_neg hc] at h; cases h; rfl

theorem mem_compareRules_iff (A B : RuleMap) (d : RuleDiff) :
    d ∈ compareRules A B ↔ diffEntry A B d.name = some d := by
  unfold compareRules
  rw [List.mem_insertionSort, List.mem_filterMap]
  constructor
  · rintro ⟨n, _, hd⟩
    rw [diffEntry_name hd]
    exact hd
  · intro h
    refine ⟨d.name, ?_, h⟩
    rw [jsSetList_mem, List.mem_append]
    by_contra hc
    push_neg at hc
    rw [(diffEntry_none_iff A B d.name).mpr ⟨hc.1, hc.2⟩] at h
    cases h

theorem filterMap_diffEntry_names (A B : RuleMap) :
    ∀ (l : List String), (∀ n ∈ l, diffEntry A B n ≠ none) →
      (l.filterMap (diffEntry A B)).map RuleDiff.name = l
  | [], _ => rfl
  | n :: l, h => by
    cases hd : diffEntry A B n with
    | none => exact absurd hd (h n (List.mem_cons_self n l))
    | some d =>
      simp only [List.filterMap_cons, hd, List.map_cons]
      rw [diffEntry_name hd,
        filterMap_diffEntry_names A B l (fun m hm => h m (List.mem_cons_of_mem n hm))]

/-! ### Swapping the two input maps -/

theorem swapSides_involutive (d : RuleDiff) : d.swapSides.swapSides = d := by
  cases d with
  | mk name status ls fs lo fo =>
    cases status <;> rfl

theorem swapSides_name (d : RuleDiff) : d.swapSides.name = d.name := rfl

theorem diffEntry_swap (A B : RuleMap) (n : String) :
    diffEntry B A n = Option.map RuleDiff.swapSides (diffEntry A B n) := by
  cases hA : A.lookup n with
  | none =>
    cases hB : B.lookup n with
    | none =>
      rw [diffEntry_neither A B n hA hB, diffEntry_neither B A n hB hA]
      rfl
    | some fr =>
      rw [diffEntry_added A B n fr hA hB, diffEntry_removed B A n fr hB hA]
      rfl
  | some lr =>
    cases hB : B.lookup n with
    | none =>
      rw [diffEntry_removed A B n lr hA hB, diffEntry_added B A n lr hB hA]
      rfl
    | some fr =>
      rw [diffEntry_both A B n lr fr hA hB, diffEntry_both B A n fr lr hB hA]
      have hiff : (fr.severity ≠ lr.severity ∨
          stringify (.arr fr.options) ≠ stringify (.arr lr.options)) ↔
          (lr.severity ≠ fr.severity ∨
          stringify (.arr lr.options) ≠ stringify (.arr fr.options)) :=
        or_congr ne_comm ne_comm
      by_cases hc : (lr.severity ≠ fr.severity ∨
          stringify (.arr lr.options) ≠ stringify (.arr fr.options))
      · rw [if_pos (hiff.mpr hc), if_pos hc]
        rfl
      · rw [if_neg (fun hx => hc (hiff.mp hx)), if_neg hc]
        rfl

/-! ### Erasing the provenance label -/

theorem eraseSource_keys :
    ∀ (m m' : RuleMap), eraseSource m = eraseSource m' → mapKeys m = mapKeys m'
  | [], [], _ => rfl
  | [], _ :: _, h => by simp [eraseSource] at h
  | _ :: _, [], h => by simp [eraseSource] at h
  | p :: t, p' :: t', h => by
    simp only [eraseSource, List.map_cons] at h
    injection h with h1 h2
    injection h1 with hk _
    simp only [mapKeys, List.map_cons]
    rw [hk]
    have ht : mapKeys t = mapKeys t' := eraseSource_keys t t' h2
    simp only [mapKeys] at ht
    rw [ht]

theorem eraseSource_lookup :
    ∀ (m m' : RuleMap), eraseSource m = eraseSource m' → ∀ (n : String),
      Option.map (fun r => (r.severity, r.options)) (m.lookup n) =
      Option.map (fun r => (r.severity, r.options)) (m'.lookup n)
  | [], [], _, _ => rfl
  | [], _ :: _, h, _ => by simp [eraseSource] at h
  | _ :: _, [], h, _ => by simp [eraseSource] at h
  | (k, r) :: t, (k', r') :: t', h, n => by
    simp only [eraseSource, List.map_cons] at h
    injection h with h1 h2
    injection h1 with hk hr
    subst hk
    by_cases hn : n = k
    · subst hn
      simp only [List.lookup_cons_self, Option.map]
      rw [hr]
    · have hb : (n == k) = false := by simp [hn]
      rw [List.lookup_cons, List.lookup_cons, hb]
      exact eraseSource_lookup t t' h2 n

theorem diffEntry_source_blind (A Aa B Bb : RuleMap)
    (hA : eraseSource A = eraseSource Aa) (hB : eraseSource B = eraseSource Bb)
    (n : String) : diffEntry A B n = diffEntry Aa Bb n := by
  have hAl := eraseSource_lookup A Aa hA n
  have hBl := eraseSource_lookup B Bb hB n
  cases h1 : A.lookup n <;> rw [h1] at hAl <;> cases h2 : Aa.lookup n <;> rw [h2] at hAl
  · cases h3 : B.lookup n <;> rw [h3] at hBl <;> cases h4 : Bb.lookup n <;> rw [h4] at hBl
    · rw [diffEntry_neither A B n h1 h3, diffEntry_neither Aa Bb n h2 h4]
    · cases hBl
    · cases hBl
    · rename_i rB rBb
      injection hBl with hBl'
      injection hBl' with hsev hopt
      rw [diffEntry_added A B n rB h1 h3, diffEntry_added Aa Bb n rBb h2 h4, hsev, hopt]
  · cases hAl
  · cases hAl
  · rename_i rA rAa
    injection hAl with hAl'
    injection hAl' with hsevA hoptA
    cases h3 : B.lookup n <;> rw [h3] at hBl <;> cases h4 : Bb.lookup n <;> rw [h4] at hBl
    · rw [diffEntry_removed A B n rA h1 h3, diffEntry_removed Aa Bb n rAa h2 h4,
        hsevA, hoptA]
    · cases hBl
    · cases hBl
    · rename_i rB rBb
      injection hBl with hBl'
      injection hBl' with hsevB hoptB
      rw [diffEntry_both A B n rA rB h1 h3, diffEntry_both Aa Bb n rAa rBb h2 h4,
        hsevA, hoptA, hsevB, hoptB]

/-! ### Totality of the traversal -/

theorem mapDiffE_ok (A B : RuleMap) :
    ∀ (l : List String), (∀ n ∈ l, diffEntry A B n ≠ none) →
      mapDiffE A B l = Except.ok (l.filterMap (diffEntry A B))
  | [], _ => rfl
  | n :: l, h => by
    cases hd : diffEntry A B n with
    | none => exact absurd hd (h n (List.mem_cons_self n l))
    | some d =>
      have ht := mapDiffE_ok A B l (fun m hm => h m (List.mem_cons_of_mem n hm))
      simp only [mapDiffE, hd, ht, List.filterMap_cons]

/-! ### Claim theorems -/

/-- C1 (the claim fails on the code): a rule declared with string severity
error in the local map and numeric severity 2 in the reference map, with
identical empty options, is classified different, not same.  compareRules
(src/cli/list-rules.ts line 320) compares severities with strict inequality
and never normalizes the synonyms, although formatSeverity,
getSeverityColor and the summary counts elsewhere in the same file treat
the synonym pairs as equal and the specification requires the status same
here. -/
theorem compareRules_error_vs_num2 :
    compareRules (extractRules [("no-var", RuleConfig.plain RuleSeverity.error)])
      (extractRules [("no-var", RuleConfig.plain RuleSeverity.num2)]) =
    [⟨"no-var", DiffStatus.different, some RuleSeverity.error, some RuleSeverity.num2,
      some [], some []⟩] := rfl

/-- C2: for every pair of rule maps, every rule name in the union of the two
key sets appears exactly once among the names of the diff output, no name
outside the union appears, and every entry carries one of the four statuses
added, removed, different and same. -/
theorem compareRules_key_partition (A B : RuleMap) (n : String) :
    ((compareRules A B).map RuleDiff.name).count n =
      (if n ∈ mapKeys A ∨ n ∈ mapKeys B then 1 else 0) ∧
    (compareRules A B).all (fun d =>
      d.status == DiffStatus.added || d.status == DiffStatus.removed ||
      d.status == DiffStatus.different || d.status == DiffStatus.same) = true := by
  constructor
  · have hperm : List.Perm (compareRules A B)
        ((jsSetList (mapKeys A ++ mapKeys B)).filterMap (diffEntry A B)) := by
      unfold compareRules
      exact List.perm_insertionSort _ _
    have hcov : ∀ m ∈ jsSetList (mapKeys A ++ mapKeys B), diffEntry A B m ≠ none := by
      intro m hm
      rw [jsSetList_mem, List.mem_append] at hm
      rw [Ne, diffEntry_none_iff]
      rintro ⟨h1, h2⟩
      rcases hm with hm | hm
      · exact h1 hm
      · exact h2 hm
    have hnames := filterMap_diffEntry_names A B _ hcov
    rw [(hperm.map RuleDiff.name).count_eq, hnames,
      List.count_eq_of_nodup (jsSetList_nodup _)]
    by_cases hmem : n ∈ mapKeys A ∨ n ∈ mapKeys B
    · rw [if_pos hmem, if_pos ((jsSetList_mem _ n).mpr (List.mem_append.mpr hmem))]
    · rw [if_neg hmem,
        if_neg (fun hc => hmem (List.mem_append.mp ((jsSetList_mem _ n).mp hc)))]
  · have hall : ∀ (l : List RuleDiff), l.all (fun d =>
        d.status == DiffStatus.added || d.status == DiffStatus.removed ||
        d.status == DiffStatus.different || d.status == DiffStatus.same) = true := by
      intro l
      induction l with
      | nil => rfl
      | cons x t ih =>
        rw [List.all_cons, ih, Bool.and_true]
        cases hs : x.status <;> rfl
    exact hall _

/-- C3 counterexample: with a local map holding the single rule a and a
reference map holding the single rule B, the comparator of the source sorts
the entry for a before the entry for B, as Node does: the expression
["B", "a"].sort((x, y) => x.localeCompare(y)) evaluates to ["a", "B"].  The
output is therefore not sorted by the ordinal order the specification
claims, which puts B (code unit 66) before a (code unit 97). -/
theorem compareRules_not_ordinal_sorted :
    ¬ List.Sorted specOrdinalLe
      (compareRules (extractRules [("a", RuleConfig.plain RuleSeverity.error)])
        (extractRules [("B", RuleConfig.plain RuleSeverity.error)])) := by
  intro h
  have hout : compareRules (extractRules [("a", RuleConfig.plain RuleSeverity.error)])
      (extractRules [("B", RuleConfig.plain RuleSeverity.error)]) =
      [⟨"a", DiffStatus.removed, some RuleSeverity.error, none, some [], none⟩,
       ⟨"B", DiffStatus.added, none, some RuleSeverity.error, none, some []⟩] := rfl
  rw [hout] at h
  have hrel := List.rel_of_sorted_cons h _ (List.mem_cons_self _ _)
  exact hrel rfl

/-- C3 amended: the diff output is sorted ascending by the localeCompare
collation the source sorts with, deterministic for a fixed host environment
but neither locale-independent nor ordinal. -/
theorem compareRules_sorted_by_localeCompare (A B : RuleMap) :
    List.Sorted diffLe (compareRules A B) := by
  haveI : IsTotal RuleDiff diffLe := ⟨diffLe_total⟩
  haveI : IsTrans RuleDiff diffLe := ⟨diffLe_trans⟩
  unfold compareRules
  exact List.sorted_insertionSort diffLe _

/-- C4: when a rule name is present in both maps, its entry is classified
same exactly when the canonical serializations of the two options sequences
agree and the severities agree as written; and structurally different
options force status different with both option sequences carried on the
entry. -/
theorem compareRules_same_iff_options (A B : RuleMap) (n : String) (rL rB : RuleData)
    (hL : A.lookup n = some rL) (hB : B.lookup n = some rB) :
    ((∃ d, d ∈ compareRules A B ∧ d.name = n ∧ d.status = DiffStatus.same) ↔
      (rL.severity = rB.severity ∧
        stringify (Json.arr rL.options) = stringify (Json.arr rB.options))) ∧
    (stringify (Json.arr rL.options) ≠ stringify (Json.arr rB.options) →
      ∃ d, d ∈ compareRules A B ∧ d.name = n ∧ d.status = DiffStatus.different ∧
        d.localOptions = some rL.options ∧ d.functypeOptions = some rB.options) := by
  constructor
  · constructor
    · rintro ⟨d, hmem, hname, hstat⟩
      rw [mem_compareRules_iff, hname, diffEntry_both A B n rL rB hL hB] at hmem
      by_cases hc : (rL.severity ≠ rB.severity ∨
          stringify (.arr rL.options) ≠ stringify (.arr rB.options))
      · rw [if_pos hc] at hmem
        cases hmem
        cases hstat
      · push_neg at hc
        exact hc
    · rintro ⟨hsev, hopt⟩
      have hc : ¬ (rL.severity ≠ rB.severity ∨
          stringify (.arr rL.options) ≠ stringify (.arr rB.options)) := by
        push_neg
        exact ⟨hsev, hopt⟩
      refine ⟨⟨n, .same, some rL.severity, some rB.severity, none, none⟩, ?_, rfl, rfl⟩
      rw [mem_compareRules_iff]
      show diffEntry A B n = _
      rw [diffEntry_both A B n rL rB hL hB, if_neg hc]
  · intro hopt
    have hc : (rL.severity ≠ rB.severity ∨
        stringify (.arr rL.options) ≠ stringify (.arr rB.options)) := Or.inr hopt
    refine ⟨⟨n, .different, some rL.severity, some rB.severity,
      some rL.options, some rB.options⟩, ?_, rfl, rfl, rfl, rfl⟩
    rw [mem_compareRules_iff]
    show diffEntry A B n = _
    rw [diffEntry_both A B n rL rB hL hB, if_pos hc]

/-- C4 witness: the scenario of the specification, local options a:1 against
reference options a:2 on the rule foo, both at severity error. -/
theorem compareRules_same_iff_options_witness :
    ∃ d, d ∈ compareRules
        [("foo", ⟨RuleSeverity.error, [Json.obj [("a", Json.num 1)]], "eslint (core)"⟩)]
        [("foo", ⟨RuleSeverity.error, [Json.obj [("a", Json.num 2)]], "eslint (core)"⟩)] ∧
      d.name = "foo" ∧ d.status = DiffStatus.different ∧
      d.localOptions = some [Json.obj [("a", Json.num 1)]] ∧
      d.functypeOptions = some [Json.obj [("a", Json.num 2)]] :=
  (compareRules_same_iff_options
      [("foo", ⟨RuleSeverity.error, [Json.obj [("a", Json.num 1)]], "eslint (core)"⟩)]
      [("foo", ⟨RuleSeverity.error, [Json.obj [("a", Json.num 2)]], "eslint (core)"⟩)]
      "foo"
      ⟨RuleSeverity.error, [Json.obj [("a", Json.num 1)]], "eslint (core)"⟩
      ⟨RuleSeverity.error, [Json.obj [("a", Json.num 2)]], "eslint (core)"⟩
      rfl rfl).2 (by decide)

/-- C5: a rule declared as a bare severity extracts exactly like the same
rule declared as a one-element array, with an empty options sequence either
way, and diffing the two forms of the same rule classifies it same, never
different. -/
theorem extractRules_bare_vs_array (n : String) (s : RuleSeverity) :
    extractRules [(n, RuleConfig.plain s)] = extractRules [(n, RuleConfig.arr s [])] ∧
    compareRules (extractRules [(n, RuleConfig.plain s)])
      (extractRules [(n, RuleConfig.arr s [])]) =
    [⟨n, DiffStatus.same, some s, some s, none, none⟩] := by
  refine ⟨rfl, ?_⟩
  have hlook : (extractRules [(n, RuleConfig.plain s)]).lookup n =
      some ⟨s, [], getRuleSource n⟩ := List.lookup_cons_self
  have hlook2 : (extractRules [(n, RuleConfig.arr s [])]).lookup n =
      some ⟨s, [], getRuleSource n⟩ := List.lookup_cons_self
  have hd : diffEntry (extractRules [(n, RuleConfig.plain s)])
      (extractRules [(n, RuleConfig.arr s [])]) n =
      some ⟨n, DiffStatus.same, some s, some s, none, none⟩ := by
    rw [diffEntry_both _ _ n ⟨s, [], getRuleSource n⟩ ⟨s, [], getRuleSource n⟩ hlook hlook2,
      if_neg (by push_neg; exact ⟨rfl, rfl⟩)]
  have hset : jsSetList (mapKeys (extractRules [(n, RuleConfig.plain s)]) ++
      mapKeys (extractRules [(n, RuleConfig.arr s [])])) = [n] := by
    simp [jsSetList, mapKeys, extractRules, addUnique]
  unfold compareRules
  rw [hset]
  simp only [List.filterMap_cons, List.filterMap_nil, hd]
  simp [List.insertionSort, List.orderedInsert]

/-- C6: swapping which map is passed as local and which as the reference
mirrors every entry and nothing else: the name is kept, added and removed
trade places, same and different are unchanged, and the local field pair and
the reference field pair are exchanged. -/
theorem compareRules_swap_mirror (A B : RuleMap) (d : RuleDiff) :
    d ∈ compareRules A B ↔ d.swapSides ∈ compareRules B A := by
  constructor
  · intro h
    rw [mem_compareRules_iff] at h ⊢
    rw [swapSides_name, diffEntry_swap, h]
    rfl
  · intro h
    rw [mem_compareRules_iff] at h ⊢
    rw [swapSides_name, diffEntry_swap] at h
    cases hx : diffEntry A B d.name with
    | none =>
      rw [hx] at h
      cases h
    | some e =>
      rw [hx] at h
      simp only [Option.map] at h
      injection h with h2
      have he : e = d := by
        rw [← swapSides_involutive e, h2, swapSides_involutive]
      rw [he]

/-- C7: a rule name is classified added exactly when it is absent from the
local map and present in the reference map, and removed exactly when it is
present in the local map and absent from the reference map. -/
theorem compareRules_added_removed_iff (A B : RuleMap) (n : String) :
    ((∃ d, d ∈ compareRules A B ∧ d.name = n ∧ d.status = DiffStatus.added) ↔
      (n ∉ mapKeys A ∧ n ∈ mapKeys B)) ∧
    ((∃ d, d ∈ compareRules A B ∧ d.name = n ∧ d.status = DiffStatus.removed) ↔
      (n ∈ mapKeys A ∧ n ∉ mapKeys B)) := by
  constructor
  · constructor
    · rintro ⟨d, hmem, hname, hstat⟩
      rw [mem_compareRules_iff, hname] at hmem
      cases hA : A.lookup n with
      | none =>
        cases hB : B.lookup n with
        | none =>
          rw [diffEntry_neither _ _ _ hA hB] at hmem
          cases hmem
        | some fr =>
          exact ⟨(ruleMap_lookup_none_iff A n).mp hA, ruleMap_mem_of_lookup_some hB⟩
      | some lr =>
        cases hB : B.lookup n with
        | none =>
          rw [diffEntry_removed _ _ _ lr hA hB] at hmem
          cases hmem
          cases hstat
        | some fr =>
          rw [diffEntry_both _ _ _ lr fr hA hB] at hmem
          by_cases hc : (lr.severity ≠ fr.severity ∨
              stringify (.arr lr.options) ≠ stringify (.arr fr.options))
          · rw [if_pos hc] at hmem
            cases hmem
            cases hstat
          · rw [if_neg hc] at hmem
            cases hmem
            cases hstat
    · rintro ⟨hnA, hnB⟩
      obtain ⟨fr, hfr⟩ := ruleMap_lookup_some_of_mem hnB
      have hA := (ruleMap_lookup_none_iff A n).mpr hnA
      refine ⟨⟨n, .added, none, some fr.severity, none, some fr.options⟩, ?_, rfl, rfl⟩
      rw [mem_compareRules_iff]
      show diffEntry A B n = _
      exact diffEntry_added A B n fr hA hfr
  · constructor
    · rintro ⟨d, hmem, hname, hstat⟩
      rw [mem_compareRules_iff, hname] at hmem
      cases hA : A.lookup n with
      | none =>
        cases hB : B.lookup n with
        | none =>
          rw [diffEntry_neither _ _ _ hA hB] at hmem
          cases hmem
        | some fr =>
          rw [diffEntry_added _ _ _ fr hA hB] at hmem
          cases hmem
          cases hstat
      | some lr =>
        cases hB : B.lookup n with
        | none =>
          exact ⟨ruleMap_mem_of_lookup_some hA, (ruleMap_lookup_none_iff B n).mp hB⟩
        | some fr =>
          rw [diffEntry_both _ _ _ lr fr hA hB] at hmem
          by_cases hc : (lr.severity ≠ fr.severity ∨
              stringify (.arr lr.options) ≠ stringify (.arr fr.options))
          · rw [if_pos hc] at hmem
            cases hmem
            cases hstat
          · rw [if_neg hc] at hmem
            cases hmem
            cases hstat
    · rintro ⟨hnA, hnB⟩
      obtain ⟨lr, hlr⟩ := ruleMap_lookup_some_of_mem hnA
      have hB := (ruleMap_lookup_none_iff B n).mpr hnB
      refine ⟨⟨n, .removed, some lr.severity, none, some lr.options, none⟩, ?_, rfl, rfl⟩
      rw [mem_compareRules_iff]
      show diffEntry A B n = _
      exact diffEntry_removed A B n lr hlr hB

/-- C8: the differ is total and effect-free: run with its only conceivable
failure path made explicit (a name of the key union found in neither map),
it returns Except.ok with exactly the pure diff on every pair of maps, so it
has no error path, and as a pure function of two immutable association lists
it leaves its inputs unchanged. -/
theorem compareRulesE_ok (A B : RuleMap) :
    compareRulesE A B = Except.ok (compareRules A B) := by
  unfold compareRulesE compareRules
  rw [mapDiffE_ok A B _ (fun m hm => by
    rw [jsSetList_mem, List.mem_append] at hm
    rw [Ne, diffEntry_none_iff]
    rintro ⟨h1, h2⟩
    rcases hm with hm | hm
    · exact h1 hm
    · exact h2 hm)]
  rfl

/-- C9: with the validation gate on, an invalid validation result makes the
profile load abort with exactly the error built by createValidationError,
and a valid result loads the profile, logging exactly its warnings. -/
theorem loadRecommended_gate (result : ValidationResult) :
    loadRecommended true result =
      (if result.isValid then Except.ok result.warnings
       else Except.error (createValidationError result)) := by
  unfold loadRecommended
  cases h : result.isValid with
  | false => simp [h]
  | true =>
    simp only [h, Bool.not_true, if_true, Bool.false_eq_true, if_false, if_true]
    by_cases hw : result.warnings.length > 0
    · simp [hw]
    · have hnil : result.warnings = [] :=
        List.length_eq_zero.mp (Nat.eq_zero_of_not_pos hw)
      simp [hw, hnil]

/-- C10: the diff does not depend on the derived source labels: two pairs of
inputs agreeing on every name, severity and options sequence produce
identical outputs, statuses included, whatever the source labels are. -/
theorem compareRules_source_independent (A Aa B Bb : RuleMap)
    (hA : eraseSource A = eraseSource Aa) (hB : eraseSource B = eraseSource Bb) :
    compareRules A B = compareRules Aa Bb := by
  unfold compareRules
  rw [eraseSource_keys A Aa hA, eraseSource_keys B Bb hB]
  congr 1
  exact List.filterMap_congr (fun n _ => diffEntry_source_blind A Aa B Bb hA hB n)

/-- C10 witness: relabelling the provenance of the one local rule changes
nothing in the diff. -/
theorem compareRules_source_independent_witness :
    compareRules [("prefer-const", ⟨RuleSeverity.error, [], "eslint (core)"⟩)] [] =
      compareRules [("prefer-const", ⟨RuleSeverity.error, [], "relabelled"⟩)] [] :=
  compareRules_source_independent _ _ _ _ rfl rfl
